import Mathlib

/-!
# Verification of the subtitle-alignment core of `mainUIexe2.py`

This file shallowly embeds the algorithmic core of the bilingual-subtitle
PDF tool: the timestamp codec `time_to_ms`, the SRT block parser
`parse_srt` (with its timing-line regex, modelled by the deterministic
maximal-munch matcher `timecode_match`), and the two-pointer aligner
`align_subtitles`.  Python strings are modelled as `List Char`; the fallible
Python operations (tuple-unpacking of `split` results, `int` conversion)
become `Option`-returning functions.  `\d` and `\s` of the regex are
modelled as the ASCII digit and whitespace classes.  Theorems at the end
settle the specification claims against these definitions.
-/

namespace KRJPN

/-- Python strings are modelled as lists of characters. -/
abbrev Str := List Char

/-- The regex class `\d`, modelled as an ASCII decimal digit. -/
def isDig (c : Char) : Bool := decide (48 ≤ c.toNat ∧ c.toNat ≤ 57)

/-- The regex class `\s` / `str.strip` whitespace, modelled as the ASCII
whitespace characters (space, tab, newline, carriage return, vertical tab,
form feed). -/
def isSpc (c : Char) : Bool :=
  decide (c.toNat = 32 ∨ c.toNat = 9 ∨ c.toNat = 10 ∨ c.toNat = 13 ∨
    c.toNat = 11 ∨ c.toNat = 12)

/-- Value of a decimal digit string (the computational content of Python's
`int` on a string of digits). -/
def digVal (s : Str) : Nat := s.foldl (fun a c => 10 * a + (c.toNat - 48)) 0

/-- Python's `int(s)` on the digit strings reachable in this program:
succeeds exactly on non-empty all-digit strings. -/
def digToNat (s : Str) : Option Nat :=
  if s ≠ [] ∧ s.all isDig then some (digVal s) else none

/-- Python's `str.split(sep)` for a one-character separator. -/
def splitChar (sep : Char) : Str → List Str
  | [] => [[]]
  | c :: cs =>
    if c = sep then [] :: splitChar sep cs
    else
      match splitChar sep cs with
      | [] => [[c]]
      | t :: ts => (c :: t) :: ts

/-- Python's `str.split("\n\n")`: split on leftmost non-overlapping
occurrences of the two-character separator. -/
def splitNN : Str → List Str
  | '\n' :: '\n' :: cs => [] :: splitNN cs
  | c :: cs =>
    match splitNN cs with
    | [] => [[c]]
    | t :: ts => (c :: t) :: ts
  | [] => [[]]

/-- Python's `str.strip()`: drop whitespace from both ends. -/
def stripChars (s : Str) : Str :=
  ((s.dropWhile isSpc).reverse.dropWhile isSpc).reverse

/-- Python's `s.ljust(3, '0')[:3]`: right-pad with `'0'` to three
characters, truncating to three if longer. -/
def ljust3 (s : Str) : Str := (s ++ List.replicate (3 - s.length) '0').take 3

/-- Python's `' '.join(lines).replace('\n', ' ')` used to build an entry's
text from the block's text lines. -/
def joinText (ls : List Str) : Str :=
  (List.intercalate [' '] ls).map (fun c => if c = '\n' then ' ' else c)

/-- `time_to_ms` of the source: split on `':'` into exactly three parts,
split the last on `','` into exactly two, convert each to an integer and
combine.  Any failure of the unpacking or the conversions (a Python
exception) is `none`. -/
def time_to_ms (time_str : Str) : Option Nat :=
  match splitChar ':' time_str with
  | [h, m, s0] =>
    match splitChar ',' s0 with
    | [s, ms] =>
      match digToNat h, digToNat m, digToNat s, digToNat ms with
      | some hv, some mv, some sv, some msv =>
        some (hv * 3600000 + mv * 60000 + sv * 1000 + msv)
      | _, _, _, _ => none
    | _ => none
  | _ => none

/-- One timestamp of the timing-line regex: `(\d+:\d+:\d+)[,.](\d+)`,
matched by maximal munch (the digit runs are bounded by non-digit
delimiters, so this is exactly the regex's behaviour).  Returns the three
digit fields of the `H:M:S` part, the separator, the millisecond field and
the unconsumed remainder. -/
def matchHMS (cs : Str) : Option (Str × Str × Str × Char × Str × Str) :=
  let h := cs.takeWhile isDig
  let r1 := cs.dropWhile isDig
  if h.isEmpty then none else
  match r1 with
  | ':' :: r2 =>
    let m := r2.takeWhile isDig
    let r3 := r2.dropWhile isDig
    if m.isEmpty then none else
    match r3 with
    | ':' :: r4 =>
      let s := r4.takeWhile isDig
      let r5 := r4.dropWhile isDig
      if s.isEmpty then none else
      match r5 with
      | p :: r6 =>
        if p = ',' || p = '.' then
          let ms := r6.takeWhile isDig
          let r7 := r6.dropWhile isDig
          if ms.isEmpty then none else some (h, m, s, p, ms, r7)
        else none
      | [] => none
    | _ => none
  | _ => none

/-- The source's `timecode_pattern.match(line)`:
`(\d+:\d+:\d+)[,.](\d+)\s*-->\s*(\d+:\d+:\d+)[,.](\d+)` anchored at the
start of the line only (`re.match`), arbitrary trailing content allowed.
Returns the four capture groups. -/
def timecode_match (cs : Str) : Option (Str × Str × Str × Str) :=
  match matchHMS cs with
  | some (h, m, s, _, ms, r) =>
    match r.dropWhile isSpc with
    | '-' :: '-' :: '>' :: r2 =>
      match matchHMS (r2.dropWhile isSpc) with
      | some (h2, m2, s2, _, ms2, _) =>
        some (h ++ ':' :: m ++ ':' :: s, ms, h2 ++ ':' :: m2 ++ ':' :: s2, ms2)
      | none => none
    | _ => none
  | none => none

/-- The body of `parse_srt`'s per-block step, as a partial function: a
block yields an entry exactly when it has at least three lines and its
second line matches the timing regex; the entry is the canonicalised start
timestamp (`group(1) + "," + group(2).ljust(3,'0')[:3]`) and the remaining
lines joined by single spaces. -/
def blockEntry (block : Str) : Option (Str × Str) :=
  match splitChar '\n' block with
  | _ :: l1 :: l2 :: rest =>
    match timecode_match l1 with
    | some (g1, g2, _, _) =>
      some (g1 ++ ',' :: ljust3 g2, joinText (l2 :: rest))
    | none => none
  | _ => none

/-- `parse_srt` of the source, applied to the decoded file content (file
reading itself is outside the core): strip the content, split on blank
lines (`"\n\n"`), and accumulate one entry per well-formed block, skipping
the rest. -/
def parse_srt (content : Str) : List (Str × Str) :=
  (splitNN (stripChars content)).foldl
    (fun entries block =>
      match splitChar '\n' block with
      | _ :: l1 :: l2 :: rest =>
        match timecode_match l1 with
        | some (g1, g2, _, _) =>
          entries ++ [(g1 ++ ',' :: ljust3 g2, joinText (l2 :: rest))]
        | none => entries
      | _ => entries)
    []

/-- `align_subtitles` of the source: two-pointer merge of the two entry
lists.  While both lists are non-empty, parse both head timestamps (a
Python exception from `time_to_ms` is `none`); within `threshold`, emit a
merged row carrying track A's timestamp and advance both; otherwise emit a
solo row for the earlier head and advance it alone.  When either list is
exhausted, drain the other into solo rows. -/
def align_subtitles :
    List (Str × Str) → List (Str × Str) → Int → Option (List (Str × Str × Str))
  | [], ja_entries, _ => some (ja_entries.map fun e => (e.1, ([] : Str), e.2))
  | ko_entries, [], _ => some (ko_entries.map fun e => (e.1, e.2, ([] : Str)))
  | (kt, kx) :: koR, (jt, jx) :: jaR, threshold =>
    match time_to_ms kt, time_to_ms jt with
    | some ko_time, some ja_time =>
      if |(ko_time : Int) - (ja_time : Int)| ≤ threshold then
        (align_subtitles koR jaR threshold).map (fun r => (kt, kx, jx) :: r)
      else if (ko_time : Int) < (ja_time : Int) then
        (align_subtitles koR ((jt, jx) :: jaR) threshold).map
          (fun r => (kt, kx, ([] : Str)) :: r)
      else
        (align_subtitles ((kt, kx) :: koR) jaR threshold).map
          (fun r => (jt, ([] : Str), jx) :: r)
    | _, _ => none
termination_by ko ja _ => ko.length + ja.length
decreasing_by all_goals (simp; try omega)

/-! ## Definitions used only to state the claims -/

/-- A non-empty run of decimal digits (one regex `\d+` field). -/
def DigitStr (l : Str) : Prop := l ≠ [] ∧ ∀ c ∈ l, isDig c = true

/-- A possibly empty run of whitespace (one regex `\s*` field). -/
def SpaceStr (l : Str) : Prop := ∀ c ∈ l, isSpc c = true

/-- Declarative reading of the source's timing-line pattern
`(\d+:\d+:\d+)[,.](\d+)\s*-->\s*(\d+:\d+:\d+)[,.](\d+)` under `re.match`:
some decomposition of the line starts with the two timestamps around the
arrow, each numeric field being one or more digits, with arbitrary
trailing content. -/
def TimingMatch (cs : Str) : Prop :=
  ∃ h m s p ms w1 w2 h2 m2 s2 p2 ms2 rest,
    cs = h ++ ':' :: (m ++ ':' :: (s ++ p ::
          (ms ++ w1 ++ '-' :: '-' :: '>' ::
            (w2 ++ h2 ++ ':' :: (m2 ++ ':' :: (s2 ++ p2 :: (ms2 ++ rest))))))) ∧
    DigitStr h ∧ DigitStr m ∧ DigitStr s ∧ (p = ',' ∨ p = '.') ∧ DigitStr ms ∧
    SpaceStr w1 ∧ SpaceStr w2 ∧
    DigitStr h2 ∧ DigitStr m2 ∧ DigitStr s2 ∧ (p2 = ',' ∨ p2 = '.') ∧ DigitStr ms2

/-- Modelled from the spec: the timing-line pattern as claim C5 states it,
`H+:MM:SS[,.]mmm --> H+:MM:SS[,.]mmm` with hours one or more digits and
minutes and seconds exactly two digits each (the source has no such
checker; this is the claim's wording made executable, for comparison with
the source's `timecode_match`). -/
def claim_pattern (cs : Str) : Bool :=
  let h := cs.takeWhile isDig
  match h.isEmpty, cs.dropWhile isDig with
  | false, ':' :: a :: b :: ':' :: c :: d :: p :: r1 =>
    if isDig a && isDig b && isDig c && isDig d && (p = ',' || p = '.') then
      let ms := r1.takeWhile isDig
      match ms.isEmpty, (r1.dropWhile isDig).dropWhile isSpc with
      | false, '-' :: '-' :: '>' :: r2 =>
        let cs2 := r2.dropWhile isSpc
        let h2 := cs2.takeWhile isDig
        match h2.isEmpty, cs2.dropWhile isDig with
        | false, ':' :: a2 :: b2 :: ':' :: c2 :: d2 :: p2 :: r3 =>
          (isDig a2 && isDig b2 && isDig c2 && isDig d2 && (p2 = ',' || p2 = '.'))
            && !(r3.takeWhile isDig).isEmpty
        | _, _ => false
      | _, _ => false
    else false
  | _, _ => false

/-- The character of a decimal digit. -/
def digitChar (d : Nat) : Char := Char.ofNat (48 + d)

/-- The decimal rendering of a natural number (no padding). -/
def natDigits (n : Nat) : Str :=
  if n < 10 then [digitChar n] else natDigits (n / 10) ++ [digitChar (n % 10)]
termination_by n
decreasing_by exact Nat.div_lt_self (by omega) (by omega)

/-- Decimal rendering zero-padded to two digits. -/
def pad2 (n : Nat) : Str := if n < 10 then '0' :: natDigits n else natDigits n

/-- Decimal rendering zero-padded to three digits. -/
def pad3n (n : Nat) : Str := if n < 100 then '0' :: pad2 n else natDigits n

/-- Modelled from the spec: the canonical textual form `H:MM:SS,mmm` of a
millisecond count (hours unpadded, minutes and seconds zero-padded to two
digits, milliseconds to three).  The source never formats a timestamp
(spec §4.1: a standalone formatter is "not required"), so the claim's
`canonicalFormat` is taken from the spec's words. -/
def canonical_format (m : Nat) : Str :=
  natDigits (m / 3600000) ++ ':' ::
    (pad2 (m / 60000 % 60) ++ ':' :: (pad2 (m / 1000 % 60) ++ ',' :: pad3n (m % 1000)))

/-- Millisecond value of an entry's timestamp field (0 if unparsable). -/
def entryMs (e : Str × Str) : Nat := (time_to_ms e.1).getD 0

/-- Millisecond value of an aligned row's timestamp field (0 if
unparsable). -/
def rowMs (r : Str × Str × Str) : Nat := (time_to_ms r.1).getD 0

/-- Number of non-empty text contributions across the aligned rows. -/
def countContribs (rows : List (Str × Str × Str)) : Nat :=
  (rows.map (fun r =>
    (if r.2.1 ≠ [] then 1 else 0) + (if r.2.2 ≠ [] then 1 else 0))).sum

/-! ## Character-class and scanning lemmas -/

theorem not_isDig_of_isSpc {c : Char} (h : isSpc c = true) : isDig c = false := by
  simp only [isSpc, decide_eq_true_eq] at h
  simp only [isDig, decide_eq_false_iff_not]
  omega

theorem not_mem_of_forall_isDig {l : Str} (hl : ∀ c ∈ l, isDig c = true)
    {d : Char} (hd : isDig d = false) : d ∉ l := by
  intro hm
  rw [hl d hm] at hd
  cases hd

theorem takeWhile_append_eq (p : Char → Bool) (a b : Str)
    (ha : ∀ c ∈ a, p c = true) (hb : ∀ c, b.head? = some c → p c = false) :
    (a ++ b).takeWhile p = a ∧ (a ++ b).dropWhile p = b := by
  induction a with
  | nil =>
    cases b with
    | nil => simp [List.takeWhile, List.dropWhile]
    | cons c cs =>
      have := hb c rfl
      simp [List.takeWhile_cons, List.dropWhile_cons, this]
  | cons x xs ih =>
    have hx := ha x (by simp)
    have := ih (fun c hc => ha c (by simp [hc]))
    simp [List.takeWhile_cons, List.dropWhile_cons, hx, this]

theorem splitChar_ne_nil (sep : Char) (s : Str) : splitChar sep s ≠ [] := by
  induction s using splitChar.induct sep with
  | case1 => simp [splitChar]
  | case2 cs ih => simp [splitChar]
  | case3 c cs hc hnil ih => exact absurd hnil ih
  | case4 c cs hc t ts hts ih => simp [splitChar, hc, hts]

theorem splitChar_not_mem {sep : Char} {s : Str} (h : sep ∉ s) :
    splitChar sep s = [s] := by
  induction s with
  | nil => rfl
  | cons c cs ih =>
    have hc : ¬c = sep := fun hh => h (by simp [hh])
    have := ih (fun hm => h (by simp [hm]))
    simp only [splitChar, if_neg hc, this]

theorem splitChar_append {sep : Char} {a r : Str} (h : sep ∉ a) :
    splitChar sep (a ++ sep :: r) = a :: splitChar sep r := by
  induction a with
  | nil => simp [splitChar]
  | cons c cs ih =>
    have hc : ¬c = sep := fun hh => h (by simp [hh])
    have := ih (fun hm => h (by simp [hm]))
    simp only [List.cons_append, splitChar, if_neg hc, List.append_eq, this]

/-! ## Digit-value lemmas -/

theorem digVal_append_singleton (a : Str) (c : Char) :
    digVal (a ++ [c]) = 10 * digVal a + (c.toNat - 48) := by
  simp [digVal, List.foldl_append]

theorem digVal_cons_zero (l : Str) : digVal ('0' :: l) = digVal l := by
  simp [digVal]

theorem digToNat_eq_some {s : Str} (h1 : s ≠ []) (h2 : ∀ c ∈ s, isDig c = true) :
    digToNat s = some (digVal s) := by
  simp [digToNat, h1, List.all_eq_true.mpr h2]

theorem digitChar_toNat {d : Nat} (h : d < 10) : (digitChar d).toNat = 48 + d := by
  interval_cases d <;> decide

theorem isDig_digitChar {d : Nat} (h : d < 10) : isDig (digitChar d) = true := by
  interval_cases d <;> decide

theorem natDigits_ne_nil (n : Nat) : natDigits n ≠ [] := by
  rw [natDigits]
  split <;> simp

theorem natDigits_all_isDig (n : Nat) : ∀ c ∈ natDigits n, isDig c = true := by
  induction n using natDigits.induct with
  | case1 n h =>
    rw [natDigits, if_pos h]
    intro c hc
    rw [List.mem_singleton] at hc
    subst hc
    exact isDig_digitChar h
  | case2 n h ih =>
    rw [natDigits, if_neg h]
    intro c hc
    rcases List.mem_append.mp hc with hc | hc
    · exact ih c hc
    · rw [List.mem_singleton] at hc
      subst hc
      exact isDig_digitChar (Nat.mod_lt _ (by omega))

theorem digVal_natDigits (n : Nat) : digVal (natDigits n) = n := by
  induction n using natDigits.induct with
  | case1 n h =>
    rw [natDigits, if_pos h]
    simp [digVal, digitChar_toNat h]
  | case2 n h ih =>
    rw [natDigits, if_neg h, digVal_append_singleton, ih,
      digitChar_toNat (Nat.mod_lt _ (by omega))]
    omega

theorem pad2_all_isDig (n : Nat) : ∀ c ∈ pad2 n, isDig c = true := by
  unfold pad2
  split
  · intro c hc
    rcases List.mem_cons.mp hc with hc | hc
    · subst hc; decide
    · exact natDigits_all_isDig n c hc
  · exact natDigits_all_isDig n

theorem pad2_ne_nil (n : Nat) : pad2 n ≠ [] := by
  unfold pad2
  split
  · simp
  · exact natDigits_ne_nil n

theorem digVal_pad2 (n : Nat) : digVal (pad2 n) = n := by
  unfold pad2
  split
  · rw [digVal_cons_zero, digVal_natDigits]
  · rw [digVal_natDigits]

theorem pad3n_all_isDig (n : Nat) : ∀ c ∈ pad3n n, isDig c = true := by
  unfold pad3n
  split
  · intro c hc
    rcases List.mem_cons.mp hc with hc | hc
    · subst hc; decide
    · exact pad2_all_isDig n c hc
  · exact natDigits_all_isDig n

theorem pad3n_ne_nil (n : Nat) : pad3n n ≠ [] := by
  unfold pad3n
  split
  · simp
  · exact natDigits_ne_nil n

theorem digVal_pad3n (n : Nat) : digVal (pad3n n) = n := by
  unfold pad3n
  split
  · rw [digVal_cons_zero, digVal_pad2]
  · rw [digVal_natDigits]

/-- `time_to_ms` on a string assembled as `h:m:s,ms` from digit fields. -/
theorem time_to_ms_build (h m s ms : Str)
    (hh : DigitStr h) (hm : DigitStr m) (hs : DigitStr s) (hms : DigitStr ms) :
    time_to_ms (h ++ ':' :: (m ++ ':' :: (s ++ ',' :: ms))) =
      some (digVal h * 3600000 + digVal m * 60000 + digVal s * 1000 + digVal ms) := by
  obtain ⟨hh1, hh2⟩ := hh
  obtain ⟨hm1, hm2⟩ := hm
  obtain ⟨hs1, hs2⟩ := hs
  obtain ⟨hms1, hms2⟩ := hms
  have hcol : isDig ':' = false := by decide
  have hcom : isDig ',' = false := by decide
  have e1 : splitChar ':' (h ++ ':' :: (m ++ ':' :: (s ++ ',' :: ms))) =
      h :: splitChar ':' (m ++ ':' :: (s ++ ',' :: ms)) :=
    splitChar_append (not_mem_of_forall_isDig hh2 hcol)
  have e2 : splitChar ':' (m ++ ':' :: (s ++ ',' :: ms)) =
      m :: splitChar ':' (s ++ ',' :: ms) :=
    splitChar_append (not_mem_of_forall_isDig hm2 hcol)
  have e3 : splitChar ':' (s ++ ',' :: ms) = [s ++ ',' :: ms] := by
    refine splitChar_not_mem ?_
    intro hmem
    rcases List.mem_append.mp hmem with hc | hc
    · exact absurd (hs2 _ hc) (by decide)
    · rcases List.mem_cons.mp hc with hc | hc
      · exact absurd hc (by decide)
      · exact absurd (hms2 _ hc) (by decide)
  have e4 : splitChar ',' (s ++ ',' :: ms) = s :: splitChar ',' ms :=
    splitChar_append (not_mem_of_forall_isDig hs2 hcom)
  have e5 : splitChar ',' ms = [ms] :=
    splitChar_not_mem (not_mem_of_forall_isDig hms2 hcom)
  simp only [time_to_ms, e1, e2, e3, e4, e5,
    digToNat_eq_some hh1 hh2, digToNat_eq_some hm1 hm2,
    digToNat_eq_some hs1 hs2, digToNat_eq_some hms1 hms2]

/-! ## Claim C7: empty-input degeneracy -/

/-- C7: `align_subtitles` applied to an empty track A returns exactly track
B mapped in order to solo rows with textA empty; applied to an empty track
B it returns exactly track A mapped in order to solo rows with textB empty;
applied to two empty tracks it returns the empty sequence. -/
theorem c7_empty_input_degeneracy (A B : List (Str × Str)) (th : Int) :
    align_subtitles [] B th = some (B.map fun e => (e.1, ([] : Str), e.2)) ∧
    align_subtitles A [] th = some (A.map fun e => (e.1, e.2, ([] : Str))) ∧
    align_subtitles [] [] th = some [] := by
  refine ⟨?_, ?_, ?_⟩
  · cases B <;> simp [align_subtitles]
  · cases A <;> simp [align_subtitles]
  · simp [align_subtitles]

/-! ## Claim C3: step behaviour at the threshold boundary -/

/-- C3: with both cursors in bounds, a distance of at most the threshold
(in particular exactly the threshold) emits a single merged row carrying
track A's timestamp and both texts and advances both cursors; a distance of
threshold + 1 or more emits no merged row, only a solo row for the earlier
entry, advancing that cursor alone. -/
theorem c3_threshold_boundary_step (e f : Str × Str) (ko ja : List (Str × Str))
    (th : Int) (a b : Nat)
    (ha : time_to_ms e.1 = some a) (hb : time_to_ms f.1 = some b) :
    (|(a : Int) - (b : Int)| ≤ th →
      align_subtitles (e :: ko) (f :: ja) th =
        (align_subtitles ko ja th).map (fun r => (e.1, e.2, f.2) :: r)) ∧
    (th + 1 ≤ |(a : Int) - (b : Int)| →
      (((a : Int) < (b : Int)) →
        align_subtitles (e :: ko) (f :: ja) th =
          (align_subtitles ko (f :: ja) th).map (fun r => (e.1, e.2, ([] : Str)) :: r)) ∧
      (((b : Int) < (a : Int)) →
        align_subtitles (e :: ko) (f :: ja) th =
          (align_subtitles (e :: ko) ja th).map (fun r => (f.1, ([] : Str), f.2) :: r))) := by
  obtain ⟨et, ex⟩ := e
  obtain ⟨ft, fx⟩ := f
  simp only at ha hb
  refine ⟨fun hle => ?_, fun hgt => ⟨fun hab => ?_, fun hba => ?_⟩⟩
  · simp [align_subtitles, ha, hb, hle]
  · have hn : ¬(|(a : Int) - (b : Int)| ≤ th) := by
      generalize |(a : Int) - (b : Int)| = X at hgt ⊢
      omega
    simp [align_subtitles, ha, hb, hn, hab]
  · have hn : ¬(|(a : Int) - (b : Int)| ≤ th) := by
      generalize |(a : Int) - (b : Int)| = X at hgt ⊢
      omega
    have hn2 : ¬((a : Int) < (b : Int)) := by omega
    simp [align_subtitles, ha, hb, hn, hn2]

/-- Witness for C3: two entries exactly 500 ms apart merge into a single
row carrying track A's timestamp and both texts. -/
theorem c3_threshold_boundary_step_witness :
    align_subtitles [("0:00:01,000".data, "k".data)] [("0:00:01,500".data, "j".data)] 500 =
      some [("0:00:01,000".data, "k".data, "j".data)] := by
  have h := (c3_threshold_boundary_step ("0:00:01,000".data, "k".data)
    ("0:00:01,500".data, "j".data) [] [] 500 1000 1500 (by decide) (by decide)).1
    (by decide)
  rw [h]
  simp [align_subtitles]

/-! ## Claim C4: timestamp round-trip -/

/-- C4: for every millisecond value below 24 hours, parsing the canonical
textual form `H:MM:SS,mmm` with `time_to_ms` yields the value back. -/
theorem c4_round_trip (m : Nat) (_hm : m < 86400000) :
    time_to_ms (canonical_format m) = some m := by
  have h1 : DigitStr (natDigits (m / 3600000)) :=
    ⟨natDigits_ne_nil _, natDigits_all_isDig _⟩
  have h2 : DigitStr (pad2 (m / 60000 % 60)) := ⟨pad2_ne_nil _, pad2_all_isDig _⟩
  have h3 : DigitStr (pad2 (m / 1000 % 60)) := ⟨pad2_ne_nil _, pad2_all_isDig _⟩
  have h4 : DigitStr (pad3n (m % 1000)) := ⟨pad3n_ne_nil _, pad3n_all_isDig _⟩
  rw [canonical_format, time_to_ms_build _ _ _ _ h1 h2 h3 h4,
    digVal_natDigits, digVal_pad2, digVal_pad2, digVal_pad3n]
  congr 1
  omega

/-- Witness for C4 at a concrete value (1 h 1 min 1 s 1 ms). -/
theorem c4_round_trip_witness :
    3661001 < 86400000 ∧ time_to_ms (canonical_format 3661001) = some 3661001 :=
  ⟨by norm_num, c4_round_trip 3661001 (by norm_num)⟩

/-! ## Claim C10: totality and output bound -/

/-- C10: on finite tracks whose timestamp strings all parse,
`align_subtitles` returns a result for every threshold — also for
out-of-order tracks — and emits at most `|A| + |B|` rows. -/
theorem c10_terminates_total (ko ja : List (Str × Str)) (th : Int)
    (hko : ∀ e ∈ ko, (time_to_ms e.1).isSome = true)
    (hja : ∀ e ∈ ja, (time_to_ms e.1).isSome = true) :
    ∃ rows, align_subtitles ko ja th = some rows ∧
      rows.length ≤ ko.length + ja.length := by
  induction ko, ja, th using align_subtitles.induct with
  | case1 ja th =>
    exact ⟨ja.map fun e => (e.1, ([] : Str), e.2), by simp [align_subtitles], by simp⟩
  | case2 ko th hne =>
    cases ko with
    | nil => exact absurd rfl hne
    | cons k koR =>
      exact ⟨(k :: koR).map fun e => (e.1, e.2, ([] : Str)),
        by simp [align_subtitles], by simp⟩
  | case3 kt kx koR jt jx jaR th kov jav hjt hkt habs ih =>
    obtain ⟨rows', he', hlen'⟩ := ih
      (fun e he => hko e (List.mem_cons_of_mem _ he))
      (fun e he => hja e (List.mem_cons_of_mem _ he))
    refine ⟨(kt, kx, jx) :: rows', ?_, ?_⟩
    · simp [align_subtitles, hkt, hjt, habs, he']
    · simp only [List.length_cons]
      omega
  | case4 kt kx koR jt jx jaR th kov jav hjt hkt habs hlt ih =>
    obtain ⟨rows', he', hlen'⟩ := ih
      (fun e he => hko e (List.mem_cons_of_mem _ he)) hja
    refine ⟨(kt, kx, ([] : Str)) :: rows', ?_, ?_⟩
    · simp [align_subtitles, hkt, hjt, habs, hlt, he']
    · simp only [List.length_cons] at hlen' ⊢
      omega
  | case5 kt kx koR jt jx jaR th kov jav hjt hkt habs hnlt ih =>
    obtain ⟨rows', he', hlen'⟩ := ih hko
      (fun e he => hja e (List.mem_cons_of_mem _ he))
    refine ⟨(jt, ([] : Str), jx) :: rows', ?_, ?_⟩
    · simp [align_subtitles, hkt, hjt, habs, hnlt, he']
    · simp only [List.length_cons] at hlen' ⊢
      omega
  | case6 kt kx koR jt jx jaR th hfail =>
    have h1 := hko (kt, kx) (List.mem_cons_self _ _)
    have h2 := hja (jt, jx) (List.mem_cons_self _ _)
    simp only [Option.isSome_iff_exists] at h1 h2
    obtain ⟨a, ha⟩ := h1
    obtain ⟨b, hb⟩ := h2
    exact absurd (hfail a b ha hb) not_false

/-- Witness for C10: an out-of-order track still aligns, within the length
bound. -/
theorem c10_terminates_total_witness :
    (∀ e ∈ [(("0:00:02,000".data : Str), ("k1".data : Str)),
              ("0:00:01,000".data, "k2".data)], (time_to_ms e.1).isSome = true) ∧
    ∃ rows, align_subtitles
        [("0:00:02,000".data, "k1".data), ("0:00:01,000".data, "k2".data)]
        [("0:00:01,200".data, "j1".data)] 500 = some rows ∧
      rows.length ≤ 3 :=
  ⟨by decide, c10_terminates_total _ _ 500 (by decide) (by decide)⟩

/-! ## Claim C6: blank-line separators -/

/-- C6 counterexample: the same two well-formed blocks separated by two
consecutive blank lines do not yield the same entries as when separated by
a single blank line, refuting the claim that a separator is any run of one
or more blank lines. -/
theorem c6_counterexample :
    parse_srt
        ("1\n0:00:01,000 --> 0:00:02,000\nhello\n\n\n2\n0:00:03,000 --> 0:00:04,000\nworld".data) ≠
      parse_srt
        ("1\n0:00:01,000 --> 0:00:02,000\nhello\n\n2\n0:00:03,000 --> 0:00:04,000\nworld".data) := by
  decide

/-- C6 (amended): the parser splits the document on exact occurrences of
the two-character separator `"\n\n"`, i.e. on single blank lines.  Blocks
separated by a single blank line all parse; an extra blank line is not
absorbed into the separator but becomes a leading empty line of the next
split block, shifting its timing line out of the second position, so that
block is skipped. -/
theorem c6_split_on_single_blank_line :
    parse_srt
        ("1\n0:00:01,000 --> 0:00:02,000\nhello\n\n2\n0:00:03,000 --> 0:00:04,000\nworld".data) =
      [("0:00:01,000".data, "hello".data), ("0:00:03,000".data, "world".data)] ∧
    parse_srt
        ("1\n0:00:01,000 --> 0:00:02,000\nhello\n\n\n2\n0:00:03,000 --> 0:00:04,000\nworld".data) =
      [("0:00:01,000".data, "hello".data)] ∧
    splitNN
        ("1\n0:00:01,000 --> 0:00:02,000\nhello\n\n\n2\n0:00:03,000 --> 0:00:04,000\nworld".data) =
      [("1\n0:00:01,000 --> 0:00:02,000\nhello".data),
        ("\n2\n0:00:03,000 --> 0:00:04,000\nworld".data)] := by
  refine ⟨?_, ?_, ?_⟩ <;> decide

/-! ## Claim C2: completeness of the partition -/

theorem filter_ne_nil_map_nil (l : List (Str × Str)) :
    (List.map (fun _ => ([] : Str)) l).filter (· ≠ ([] : Str)) = [] := by
  induction l with
  | nil => rfl
  | cons e l ih => simp [List.filter_cons, ih]

/-- The two text projections of an aligned result, restricted to non-empty
texts, are exactly the corresponding input tracks' non-empty texts, in
order. -/
theorem align_filter_texts (ko ja : List (Str × Str)) (th : Int)
    (rows : List (Str × Str × Str))
    (h : align_subtitles ko ja th = some rows) :
    ((rows.map fun r => r.2.1).filter (· ≠ ([] : Str)) =
      (ko.map fun e => e.2).filter (· ≠ ([] : Str))) ∧
    ((rows.map fun r => r.2.2).filter (· ≠ ([] : Str)) =
      (ja.map fun e => e.2).filter (· ≠ ([] : Str))) := by
  induction ko, ja, th using align_subtitles.induct generalizing rows with
  | case1 ja th =>
    simp only [align_subtitles, Option.some.injEq] at h
    subst h
    constructor
    · simp only [List.map_map]
      rw [show ((fun r : Str × Str × Str => r.2.1) ∘ fun e : Str × Str => (e.1, ([] : Str), e.2)) =
        fun _ => ([] : Str) from rfl]
      rw [filter_ne_nil_map_nil]
      simp
    · simp only [List.map_map]
      rfl
  | case2 ko th hne =>
    cases ko with
    | nil => exact absurd rfl hne
    | cons k koR =>
      simp only [align_subtitles, Option.some.injEq] at h
      subst h
      constructor
      · simp only [List.map_map]
        rfl
      · simp only [List.map_map]
        rw [show ((fun r : Str × Str × Str => r.2.2) ∘ fun e : Str × Str => (e.1, e.2, ([] : Str))) =
          fun _ => ([] : Str) from rfl]
        rw [filter_ne_nil_map_nil]
        simp
  | case3 kt kx koR jt jx jaR th kov jav hjt hkt habs ih =>
    simp only [align_subtitles, hkt, hjt, if_pos habs, Option.map_eq_some'] at h
    obtain ⟨rows', hr', hcons⟩ := h
    subst hcons
    obtain ⟨ihA, ihB⟩ := ih rows' hr'
    refine ⟨?_, ?_⟩
    · simp only [List.map_cons, List.filter_cons, ihA]
    · simp only [List.map_cons, List.filter_cons, ihB]
  | case4 kt kx koR jt jx jaR th kov jav hjt hkt habs hlt ih =>
    simp only [align_subtitles, hkt, hjt, if_neg habs, if_pos hlt,
      Option.map_eq_some'] at h
    obtain ⟨rows', hr', hcons⟩ := h
    subst hcons
    obtain ⟨ihA, ihB⟩ := ih rows' hr'
    refine ⟨?_, ?_⟩
    · simp only [List.map_cons, List.filter_cons, ihA]
    · simp only [List.map_cons, List.filter_cons, ihB]
      simp
  | case5 kt kx koR jt jx jaR th kov jav hjt hkt habs hnlt ih =>
    simp only [align_subtitles, hkt, hjt, if_neg habs, if_neg hnlt,
      Option.map_eq_some'] at h
    obtain ⟨rows', hr', hcons⟩ := h
    subst hcons
    obtain ⟨ihA, ihB⟩ := ih rows' hr'
    refine ⟨?_, ?_⟩
    · simp only [List.map_cons, List.filter_cons, ihA]
      simp
    · simp only [List.map_cons, List.filter_cons, ihB]
  | case6 kt kx koR jt jx jaR th hfail =>
    simp only [align_subtitles] at h
    rcases e1 : time_to_ms kt with _ | a
    · cases h
    · rcases e2 : time_to_ms jt with _ | b
      · cases h
      · exact absurd (hfail a b e1 e2) not_false

theorem countContribs_eq_filters (rows : List (Str × Str × Str)) :
    countContribs rows =
      ((rows.map fun r => r.2.1).filter (· ≠ ([] : Str))).length +
      ((rows.map fun r => r.2.2).filter (· ≠ ([] : Str))).length := by
  induction rows with
  | nil => rfl
  | cons r rs ih =>
    simp only [countContribs, List.map_cons, List.sum_cons, List.filter_cons] at ih ⊢
    by_cases h1 : r.2.1 = ([] : Str) <;> by_cases h2 : r.2.2 = ([] : Str) <;>
      simp [h1, h2] at ih ⊢ <;> omega

/-- C2 counterexample: for a track containing an entry whose text is the
empty string (and an empty other track), the aligned output's number of
non-empty text contributions is 0, not `|A| + |B| = 1`, refuting the
claimed count for arbitrary tracks. -/
theorem c2_counterexample :
    align_subtitles [(("0:00:00,000".data : Str), ([] : Str))] [] 500 =
      some [("0:00:00,000".data, ([] : Str), ([] : Str))] ∧
    countContribs [(("0:00:00,000".data : Str), ([] : Str), ([] : Str))] ≠
      List.length [(("0:00:00,000".data : Str), ([] : Str))] +
        List.length ([] : List (Str × Str)) := by
  refine ⟨?_, by decide⟩
  simp [align_subtitles]

/-- C2 (amended): the aligned output is a complete partition of the input
texts side by side: the A-side (resp. B-side) texts of the rows, empties
removed, are exactly track A's (resp. track B's) non-empty texts in order
— nothing duplicated or dropped; consequently, whenever every input entry
has non-empty text, the number of non-empty text contributions equals
`|A| + |B|` (entries with empty text contribute empty fields and are not
counted, which is the only failure of the original count). -/
theorem c2_complete_partition (ko ja : List (Str × Str)) (th : Int)
    (rows : List (Str × Str × Str))
    (h : align_subtitles ko ja th = some rows) :
    ((rows.map fun r => r.2.1).filter (· ≠ ([] : Str)) =
      (ko.map fun e => e.2).filter (· ≠ ([] : Str))) ∧
    ((rows.map fun r => r.2.2).filter (· ≠ ([] : Str)) =
      (ja.map fun e => e.2).filter (· ≠ ([] : Str))) ∧
    ((∀ e ∈ ko, e.2 ≠ []) → (∀ e ∈ ja, e.2 ≠ []) →
      countContribs rows = ko.length + ja.length) := by
  obtain ⟨hA, hB⟩ := align_filter_texts ko ja th rows h
  refine ⟨hA, hB, fun hko hja => ?_⟩
  rw [countContribs_eq_filters, hA, hB,
    List.filter_eq_self.mpr (fun t ht => by
      obtain ⟨e, he, rfl⟩ := List.mem_map.mp ht
      simpa using hko e he),
    List.filter_eq_self.mpr (fun t ht => by
      obtain ⟨e, he, rfl⟩ := List.mem_map.mp ht
      simpa using hja e he)]
  simp

/-- Witness for C2: a one-entry track against an empty track yields exactly
one non-empty contribution. -/
theorem c2_complete_partition_witness :
    countContribs [(("0:00:01,000".data : Str), ("a".data : Str), ([] : Str))] = 1 :=
  (c2_complete_partition [(("0:00:01,000".data : Str), ("a".data : Str))] [] 500
    [(("0:00:01,000".data : Str), ("a".data : Str), ([] : Str))]
    (by simp [align_subtitles])).2.2 (by decide) (by decide)

/-! ## Claim C1: ordering of the output timestamps -/

/-- Ordering invariant of the aligner: for parseable, non-decreasing inputs
and a non-negative threshold, the output timestamp sequence drops by at
most the threshold at each step, and any common lower bound (shifted by the
threshold) of all remaining input timestamps bounds every output
timestamp. -/
theorem align_slack_aux (ko ja : List (Str × Str)) (th : Int) (hth : 0 ≤ th)
    (hko : ∀ e ∈ ko, (time_to_ms e.1).isSome = true)
    (hja : ∀ e ∈ ja, (time_to_ms e.1).isSome = true)
    (pko : List.Pairwise (· ≤ ·) (ko.map entryMs))
    (pja : List.Pairwise (· ≤ ·) (ja.map entryMs)) :
    ∃ rows, align_subtitles ko ja th = some rows ∧
      List.Chain' (fun x y : Nat => (x : Int) ≤ (y : Int) + th) (rows.map rowMs) ∧
      ∀ m : Nat, (∀ x ∈ ko.map entryMs, (m : Int) ≤ (x : Int) + th) →
        (∀ x ∈ ja.map entryMs, (m : Int) ≤ (x : Int) + th) →
        ∀ y ∈ rows.map rowMs, (m : Int) ≤ (y : Int) + th := by
  induction ko, ja, th using align_subtitles.induct with
  | case1 ja th =>
    refine ⟨ja.map fun e => (e.1, ([] : Str), e.2), by simp [align_subtitles], ?_, ?_⟩
    · rw [List.map_map,
        show (rowMs ∘ fun e : Str × Str => (e.1, ([] : Str), e.2)) = entryMs from rfl]
      exact (pja.chain').imp (fun a b hab => by omega)
    · intro m hbk hbj y hy
      rw [List.map_map,
        show (rowMs ∘ fun e : Str × Str => (e.1, ([] : Str), e.2)) = entryMs from rfl] at hy
      exact hbj y hy
  | case2 ko th hne =>
    cases ko with
    | nil => exact absurd rfl hne
    | cons k koR =>
      refine ⟨(k :: koR).map fun e => (e.1, e.2, ([] : Str)),
        by simp [align_subtitles], ?_, ?_⟩
      · rw [List.map_map,
          show (rowMs ∘ fun e : Str × Str => (e.1, e.2, ([] : Str))) = entryMs from rfl]
        exact (pko.chain').imp (fun a b hab => by omega)
      · intro m hbk hbj y hy
        rw [List.map_map,
          show (rowMs ∘ fun e : Str × Str => (e.1, e.2, ([] : Str))) = entryMs from rfl] at hy
        exact hbk y hy
  | case3 kt kx koR jt jx jaR th kov jav hjt hkt habs ih =>
    have ekov : entryMs (kt, kx) = kov := by simp [entryMs, hkt]
    have ejav : entryMs (jt, jx) = jav := by simp [entryMs, hjt]
    simp only [List.map_cons, List.pairwise_cons, ekov, ejav] at pko pja
    obtain ⟨pko1, pko2⟩ := pko
    obtain ⟨pja1, pja2⟩ := pja
    obtain ⟨rows', heq', hch', hbnd'⟩ := ih hth
      (fun e he => hko e (List.mem_cons_of_mem _ he))
      (fun e he => hja e (List.mem_cons_of_mem _ he)) pko2 pja2
    have habs2 := abs_le.mp habs
    have bndKo : ∀ x ∈ koR.map entryMs, (kov : Int) ≤ (x : Int) + th :=
      fun x hx => by have := pko1 x hx; omega
    have bndJa : ∀ x ∈ jaR.map entryMs, (kov : Int) ≤ (x : Int) + th :=
      fun x hx => by have := pja1 x hx; omega
    refine ⟨(kt, kx, jx) :: rows', ?_, ?_, ?_⟩
    · simp [align_subtitles, hkt, hjt, habs, heq']
    · simp only [List.map_cons, show rowMs (kt, kx, jx) = kov from by simp [rowMs, hkt]]
      refine List.chain'_cons'.mpr ⟨?_, hch'⟩
      intro y hy
      exact hbnd' kov bndKo bndJa y (List.mem_of_mem_head? hy)
    · intro m hbk hbj y hy
      simp only [List.map_cons,
        show rowMs (kt, kx, jx) = kov from by simp [rowMs, hkt]] at hy
      rcases List.mem_cons.mp hy with rfl | hy
      · have := hbk (entryMs (kt, kx)) (by simp)
        rw [ekov] at this
        exact this
      · exact hbnd' m (fun x hx => hbk x (by simp [hx]))
          (fun x hx => hbj x (by simp [hx])) y hy
  | case4 kt kx koR jt jx jaR th kov jav hjt hkt habs hlt ih =>
    have ekov : entryMs (kt, kx) = kov := by simp [entryMs, hkt]
    have ejav : entryMs (jt, jx) = jav := by simp [entryMs, hjt]
    simp only [List.map_cons, List.pairwise_cons, ekov, ejav] at pko pja
    obtain ⟨pko1, pko2⟩ := pko
    obtain ⟨pja1, pja2⟩ := pja
    obtain ⟨rows', heq', hch', hbnd'⟩ := ih hth
      (fun e he => hko e (List.mem_cons_of_mem _ he)) hja pko2
      (by simp only [List.map_cons, List.pairwise_cons, ejav]; exact ⟨pja1, pja2⟩)
    have bndKo : ∀ x ∈ koR.map entryMs, (kov : Int) ≤ (x : Int) + th :=
      fun x hx => by have := pko1 x hx; omega
    have bndJa : ∀ x ∈ (jt, jx) :: jaR |>.map entryMs, (kov : Int) ≤ (x : Int) + th := by
      intro x hx
      simp only [List.map_cons, List.mem_cons, ejav] at hx
      rcases hx with rfl | hx
      · omega
      · have := pja1 x hx
        omega
    refine ⟨(kt, kx, ([] : Str)) :: rows', ?_, ?_, ?_⟩
    · simp [align_subtitles, hkt, hjt, habs, hlt, heq']
    · simp only [List.map_cons, show rowMs (kt, kx, ([] : Str)) = kov from by simp [rowMs, hkt]]
      refine List.chain'_cons'.mpr ⟨?_, hch'⟩
      intro y hy
      exact hbnd' kov bndKo bndJa y (List.mem_of_mem_head? hy)
    · intro m hbk hbj y hy
      simp only [List.map_cons,
        show rowMs (kt, kx, ([] : Str)) = kov from by simp [rowMs, hkt]] at hy
      rcases List.mem_cons.mp hy with rfl | hy
      · have := hbk (entryMs (kt, kx)) (by simp)
        rw [ekov] at this
        exact this
      · exact hbnd' m (fun x hx => hbk x (by simp [hx])) hbj y hy
  | case5 kt kx koR jt jx jaR th kov jav hjt hkt habs hnlt ih =>
    have ekov : entryMs (kt, kx) = kov := by simp [entryMs, hkt]
    have ejav : entryMs (jt, jx) = jav := by simp [entryMs, hjt]
    simp only [List.map_cons, List.pairwise_cons, ekov, ejav] at pko pja
    obtain ⟨pko1, pko2⟩ := pko
    obtain ⟨pja1, pja2⟩ := pja
    obtain ⟨rows', heq', hch', hbnd'⟩ := ih hth hko
      (fun e he => hja e (List.mem_cons_of_mem _ he))
      (by simp only [List.map_cons, List.pairwise_cons, ekov]; exact ⟨pko1, pko2⟩) pja2
    have hje : (jav : Int) ≤ (kov : Int) := by omega
    have bndKo : ∀ x ∈ (kt, kx) :: koR |>.map entryMs, (jav : Int) ≤ (x : Int) + th := by
      intro x hx
      simp only [List.map_cons, List.mem_cons, ekov] at hx
      rcases hx with rfl | hx
      · omega
      · have := pko1 x hx
        omega
    have bndJa : ∀ x ∈ jaR.map entryMs, (jav : Int) ≤ (x : Int) + th :=
      fun x hx => by have := pja1 x hx; omega
    refine ⟨(jt, ([] : Str), jx) :: rows', ?_, ?_, ?_⟩
    · simp [align_subtitles, hkt, hjt, habs, hnlt, heq']
    · simp only [List.map_cons, show rowMs (jt, ([] : Str), jx) = jav from by simp [rowMs, hjt]]
      refine List.chain'_cons'.mpr ⟨?_, hch'⟩
      intro y hy
      exact hbnd' jav bndKo bndJa y (List.mem_of_mem_head? hy)
    · intro m hbk hbj y hy
      simp only [List.map_cons,
        show rowMs (jt, ([] : Str), jx) = jav from by simp [rowMs, hjt]] at hy
      rcases List.mem_cons.mp hy with rfl | hy
      · have := hbj (entryMs (jt, jx)) (by simp)
        rw [ejav] at this
        exact this
      · exact hbnd' m hbk (fun x hx => hbj x (by simp [hx])) y hy
  | case6 kt kx koR jt jx jaR th hfail =>
    have h1 := hko (kt, kx) (List.mem_cons_self _ _)
    have h2 := hja (jt, jx) (List.mem_cons_self _ _)
    simp only [Option.isSome_iff_exists] at h1 h2
    obtain ⟨a, ha⟩ := h1
    obtain ⟨b, hb⟩ := h2
    exact absurd (hfail a b ha hb) not_false

/-- C1 counterexample: with non-decreasing inputs (A = [1000 ms],
B = [600 ms, 601 ms]) and threshold 500, the first step merges at distance
400 and stamps the row with track A's 1000 ms; the drained B entry at
601 ms then follows it, so the output timestamp sequence [1000, 601] is not
non-decreasing, refuting order preservation as claimed. -/
theorem c1_counterexample :
    List.Chain' (· ≤ ·)
      (List.map entryMs [(("0:00:01,000".data : Str), ("k".data : Str))]) ∧
    List.Chain' (· ≤ ·)
      (List.map entryMs [(("0:00:00,600".data : Str), ("j1".data : Str)),
        (("0:00:00,601".data : Str), ("j2".data : Str))]) ∧
    align_subtitles [(("0:00:01,000".data : Str), ("k".data : Str))]
        [(("0:00:00,600".data : Str), ("j1".data : Str)),
          (("0:00:00,601".data : Str), ("j2".data : Str))] 500 =
      some [("0:00:01,000".data, "k".data, "j1".data),
        ("0:00:00,601".data, ([] : Str), "j2".data)] ∧
    ¬ List.Chain' (· ≤ ·)
      (List.map rowMs [(("0:00:01,000".data : Str), ("k".data : Str), ("j1".data : Str)),
        (("0:00:00,601".data : Str), ([] : Str), ("j2".data : Str))]) := by
  have e1 : List.map entryMs [(("0:00:01,000".data : Str), ("k".data : Str))] = [1000] := by
    decide
  have e2 : List.map entryMs [(("0:00:00,600".data : Str), ("j1".data : Str)),
      (("0:00:00,601".data : Str), ("j2".data : Str))] = [600, 601] := by decide
  have e3 : List.map rowMs [(("0:00:01,000".data : Str), ("k".data : Str), ("j1".data : Str)),
      (("0:00:00,601".data : Str), ([] : Str), ("j2".data : Str))] = [1000, 601] := by decide
  refine ⟨?_, ?_, ?_, ?_⟩
  · rw [e1]
    exact List.chain'_singleton _
  · rw [e2]
    simp [List.chain'_cons, List.chain'_singleton]
  · have h1 : time_to_ms ("0:00:01,000".data) = some 1000 := by decide
    have h2 : time_to_ms ("0:00:00,600".data) = some 600 := by decide
    have habs : |(1000 : Int) - (600 : Int)| ≤ 500 := by decide
    simp [align_subtitles, h1, h2, habs]
  · rw [e3]
    simp [List.chain'_cons, List.chain'_singleton]

/-- C1 (amended): for non-decreasing, parseable inputs and a non-negative
threshold, the aligned output's timestamp sequence is non-decreasing up to
the threshold: each timestamp is at least the previous one minus the
threshold.  (Exact non-decreasingness fails: a merged row carries track A's
timestamp, which can exceed later track-B timestamps by up to the
threshold.) -/
theorem c1_order_slack (ko ja : List (Str × Str)) (th : Int) (hth : 0 ≤ th)
    (hko : ∀ e ∈ ko, (time_to_ms e.1).isSome = true)
    (hja : ∀ e ∈ ja, (time_to_ms e.1).isSome = true)
    (mko : List.Chain' (· ≤ ·) (ko.map entryMs))
    (mja : List.Chain' (· ≤ ·) (ja.map entryMs)) :
    ∃ rows, align_subtitles ko ja th = some rows ∧
      List.Chain' (fun x y : Nat => (x : Int) ≤ (y : Int) + th) (rows.map rowMs) := by
  obtain ⟨rows, h1, h2, _⟩ := align_slack_aux ko ja th hth hko hja
    (List.chain'_iff_pairwise.mp mko) (List.chain'_iff_pairwise.mp mja)
  exact ⟨rows, h1, h2⟩

/-- Witness for C1 (amended) on the counterexample's tracks: the slack
bound holds where exact monotonicity fails. -/
theorem c1_order_slack_witness :
    ∃ rows, align_subtitles [(("0:00:01,000".data : Str), ("k".data : Str))]
        [(("0:00:00,600".data : Str), ("j1".data : Str)),
          (("0:00:00,601".data : Str), ("j2".data : Str))] 500 = some rows ∧
      List.Chain' (fun x y : Nat => (x : Int) ≤ (y : Int) + 500) (rows.map rowMs) := by
  have e1 : List.map entryMs [(("0:00:01,000".data : Str), ("k".data : Str))] = [1000] := by
    decide
  have e2 : List.map entryMs [(("0:00:00,600".data : Str), ("j1".data : Str)),
      (("0:00:00,601".data : Str), ("j2".data : Str))] = [600, 601] := by decide
  exact c1_order_slack _ _ 500 (by norm_num) (by decide) (by decide)
    (by rw [e1]; exact List.chain'_singleton _)
    (by rw [e2]; simp [List.chain'_cons, List.chain'_singleton])

/-! ## Claim C8: malformed blocks are skipped, never fatal -/

/-- The accumulator loop of `parse_srt` is the `filterMap` of the
per-block partial function `blockEntry`. -/
theorem foldl_blocks_eq_filterMap (bs : List Str) (acc : List (Str × Str)) :
    bs.foldl
      (fun entries block =>
        match splitChar '\n' block with
        | _ :: l1 :: l2 :: rest =>
          match timecode_match l1 with
          | some (g1, g2, _, _) =>
            entries ++ [(g1 ++ ',' :: ljust3 g2, joinText (l2 :: rest))]
          | none => entries
        | _ => entries) acc = acc ++ bs.filterMap blockEntry := by
  induction bs generalizing acc with
  | nil => simp
  | cons b bs ih =>
    rw [List.foldl_cons, ih, List.filterMap_cons]
    rcases hsp : splitChar '\n' b with _ | ⟨l0, _ | ⟨l1, _ | ⟨l2, rest⟩⟩⟩
    · simp [blockEntry, hsp]
    · simp [blockEntry, hsp]
    · simp [blockEntry, hsp]
    · rcases ht : timecode_match l1 with _ | ⟨g1, g2, g3, g4⟩
      · simp [blockEntry, hsp, ht]
      · simp [blockEntry, hsp, ht]

theorem parse_srt_eq_filterMap (content : Str) :
    parse_srt content = (splitNN (stripChars content)).filterMap blockEntry := by
  rw [parse_srt, foldl_blocks_eq_filterMap]
  simp

/-- C8: parsing is the blockwise `filterMap` of `blockEntry` over the
blank-line split, so a malformed block — fewer than three lines, or a
second line that does not match the timing pattern — contributes no entry
and does not abort the remaining blocks; a readable document with zero
well-formed blocks yields the empty track as a successful result. -/
theorem c8_malformed_blocks_skipped :
    (∀ content : Str, parse_srt content =
      (splitNN (stripChars content)).filterMap blockEntry) ∧
    (∀ block : Str, ((splitChar '\n' block).length < 3 ∨
        timecode_match ((splitChar '\n' block).getD 1 []) = none) →
      blockEntry block = none) ∧
    (∀ content : Str, (∀ b ∈ splitNN (stripChars content), blockEntry b = none) →
      parse_srt content = []) := by
  refine ⟨parse_srt_eq_filterMap, ?_, ?_⟩
  · intro block hcond
    rcases hsp : splitChar '\n' block with _ | ⟨l0, _ | ⟨l1, _ | ⟨l2, rest⟩⟩⟩
    · simp [blockEntry, hsp]
    · simp [blockEntry, hsp]
    · simp [blockEntry, hsp]
    · rw [hsp] at hcond
      rcases hcond with hlen | ht
      · simp only [List.length_cons] at hlen
        omega
      · simp only [blockEntry, hsp]
        rw [show (l0 :: l1 :: l2 :: rest).getD 1 [] = l1 from rfl] at ht
        simp [ht]
  · intro content hall
    rw [parse_srt_eq_filterMap]
    exact List.filterMap_eq_nil_iff.mpr hall

/-- Witness for C8: a readable document with no well-formed block parses to
the empty track. -/
theorem c8_malformed_blocks_skipped_witness :
    parse_srt ("no timing line here".data) = [] :=
  c8_malformed_blocks_skipped.2.2 ("no timing line here".data) (by decide)

/-! ## Claim C9: no row has both texts empty -/

theorem splitNN_ne_nil (s : Str) : splitNN s ≠ [] := by
  rw [splitNN.eq_def]
  split
  · simp
  · split <;> simp
  · simp

/-- If the first block of a split is empty and more blocks follow, the
string begins with the separator. -/
theorem splitNN_head_nil {x : Char} {xs : Str} {ts : List Str}
    (h : splitNN (x :: xs) = [] :: ts) : x = '\n' ∧ ∃ ys, xs = '\n' :: ys := by
  rw [splitNN.eq_def] at h
  split at h
  · rename_i cs heq
    injection heq with h1 h2
    exact ⟨h1, cs, h2⟩
  · split at h
    · injection h with h1
      cases h1
    · injection h with h1
      cases h1
  · rename_i heq
    exact absurd heq (by simp)

/-- One unfolding of `splitNN` when the string does not start with the
separator. -/
theorem splitNN_cons_eq {c : Char} {cs : Str} {t : Str} {ts : List Str}
    (hne : ∀ ys, c = '\n' → cs = '\n' :: ys → False)
    (hts : splitNN cs = t :: ts) :
    splitNN (c :: cs) = (c :: t) :: ts := by
  rw [splitNN.eq_def]
  split
  · rename_i cs2 heq
    injection heq with e1 e2
    exact absurd (hne cs2 e1 e2) not_false
  · rename_i heq
    injection heq with e1 e2
    subst e1
    subst e2
    rw [hts]
  · rename_i heq
    exact absurd heq (by simp)

/-- No block produced by splitting a string that does not end in a newline
ends in a newline: interior blocks are cut exactly at the separator, and
the last block inherits the string's last character. -/
theorem splitNN_blocks_no_trailing_newline {s : Str}
    (hs : s.getLast? ≠ some '\n') :
    ∀ b ∈ splitNN s, b.getLast? ≠ some '\n' := by
  induction s using splitNN.induct with
  | case1 cs ih =>
    intro b hb
    have hcs : cs.getLast? ≠ some '\n' := by
      cases cs with
      | nil => exact absurd (by simp) hs
      | cons c' cs' =>
        rwa [List.getLast?_cons_cons, List.getLast?_cons_cons] at hs
    rw [show splitNN ('\n' :: '\n' :: cs) = [] :: splitNN cs from rfl] at hb
    rcases List.mem_cons.mp hb with rfl | hb
    · simp
    · exact ih hcs b hb
  | case2 c cs hne hnil ih =>
    exact absurd hnil (splitNN_ne_nil cs)
  | case3 c cs hne t ts hts ih =>
    intro b hb
    rw [splitNN_cons_eq hne hts] at hb
    cases cs with
    | nil =>
      have hc : c ≠ '\n' := fun hh => hs (by simp [hh])
      have ht0 : t = [] ∧ ts = [] := by
        have h0 : splitNN ([] : Str) = [[]] := rfl
        rw [h0] at hts
        injection hts with e1 e2
        exact ⟨e1.symm, e2.symm⟩
      obtain ⟨rfl, rfl⟩ := ht0
      rcases List.mem_cons.mp hb with rfl | hb
      · simpa using hc
      · cases hb
    | cons c' cs' =>
      have hcs : (c' :: cs').getLast? ≠ some '\n' := by
        rwa [List.getLast?_cons_cons] at hs
      have ihall := ih hcs
      rcases List.mem_cons.mp hb with rfl | hb
      · cases t with
        | nil =>
          obtain ⟨hc', ys, hys⟩ := splitNN_head_nil hts
          have hcne : c ≠ '\n' := fun hcn => hne cs' hcn (by rw [hc'])
          simpa using hcne
        | cons t0 t' =>
          have := ihall (t0 :: t') (by rw [hts]; exact List.mem_cons_self _ _)
          rwa [List.getLast?_cons_cons]
      · exact ihall b (by rw [hts]; exact List.mem_cons_of_mem _ hb)
  | case4 =>
    intro b hb
    rw [show splitNN ([] : Str) = [[]] from rfl] at hb
    rcases List.mem_cons.mp hb with rfl | hb
    · simp
    · cases hb

theorem head?_dropWhile_not (p : Char → Bool) (l : Str) :
    ∀ c, (l.dropWhile p).head? = some c → p c = false := by
  induction l with
  | nil => intro c hc; cases hc
  | cons x xs ih =>
    intro c hc
    rw [List.dropWhile_cons] at hc
    by_cases hp : p x = true
    · rw [if_pos hp] at hc
      exact ih c hc
    · rw [if_neg hp] at hc
      injection hc with hc
      subst hc
      exact Bool.not_eq_true _ |>.mp hp

/-- The stripped content never ends in a newline. -/
theorem stripChars_no_trailing_newline (s : Str) :
    (stripChars s).getLast? ≠ some '\n' := by
  intro h
  rw [stripChars, List.getLast?_reverse] at h
  have := head?_dropWhile_not isSpc ((s.dropWhile isSpc).reverse) '\n' h
  simp [isSpc] at this

theorem getLastD_irrel {l : List Str} (hl : l ≠ []) (d d' : Str) :
    l.getLastD d = l.getLastD d' := by
  cases l with
  | nil => contradiction
  | cons a l => rw [List.getLastD_cons, List.getLastD_cons]

/-- Splitting a non-empty string with no trailing newline on newlines
yields a non-empty last line. -/
theorem splitChar_getLastD_ne_nil {b : Str} (hb : b ≠ [])
    (hlast : b.getLast? ≠ some '\n') :
    (splitChar '\n' b).getLastD [] ≠ [] := by
  induction b with
  | nil => contradiction
  | cons c cs ih =>
    cases cs with
    | nil =>
      have hc : ¬(c = '\n') := fun hh => hlast (by simp [hh])
      simp [splitChar, hc]
    | cons c' cs' =>
      have hlast' : (c' :: cs').getLast? ≠ some '\n' := by
        rwa [List.getLast?_cons_cons] at hlast
      have ih' := ih (by simp) hlast'
      rcases hsp : splitChar '\n' (c' :: cs') with _ | ⟨t, ts⟩
      · exact absurd hsp (splitChar_ne_nil _ _)
      · rw [hsp] at ih'
        by_cases hc : c = '\n'
        · subst hc
          rw [show splitChar '\n' ('\n' :: c' :: cs') =
            [] :: splitChar '\n' (c' :: cs') from by rw [splitChar, if_pos rfl], hsp]
          rw [List.getLastD_cons]
          rwa [getLastD_irrel (List.cons_ne_nil t ts) [] ([] : Str)] at ih'
        · rw [show splitChar '\n' (c :: c' :: cs') =
            (c :: t) :: ts from by rw [splitChar, if_neg hc, hsp]]
          cases ts with
          | nil => simp
          | cons u us =>
            rw [List.getLastD_cons]
            rw [List.getLastD_cons] at ih'
            rw [getLastD_irrel (List.cons_ne_nil u us) (c :: t) t]
            exact ih'
            
/-- Every entry produced by the parser has non-empty text. -/
theorem parse_srt_text_ne_nil (content : Str) :
    ∀ e ∈ parse_srt content, e.2 ≠ [] := by
  intro e he
  rw [parse_srt_eq_filterMap] at he
  obtain ⟨b, hb, hbe⟩ := List.mem_filterMap.mp he
  have hbl : b.getLast? ≠ some '\n' :=
    splitNN_blocks_no_trailing_newline (stripChars_no_trailing_newline content) b hb
  unfold blockEntry at hbe
  split at hbe
  · split at hbe
    · rename_i l1 l2 rest heq1 x g1 g2 g3 g4 ht
      injection hbe with hbe
      subst hbe
      show joinText (l2 :: rest) ≠ []
      cases rest with
      | nil =>
        have hbne : b ≠ [] := by
          intro hh
          rw [hh] at heq1
          cases heq1
        have h3 := splitChar_getLastD_ne_nil hbne hbl
        rw [heq1] at h3
        simp only [List.getLastD_cons] at h3
        simp only [joinText, List.intercalate, List.intersperse, List.flatten]
        simpa using h3
      | cons l3 rest2 =>
        simp only [joinText, List.intercalate, List.intersperse_cons_cons, List.flatten]
        simp
    · cases hbe
  · cases hbe

/-- Rows produced by the aligner from tracks with non-empty texts never
have both text fields empty. -/
theorem align_rows_text_or (ko ja : List (Str × Str)) (th : Int)
    (rows : List (Str × Str × Str))
    (h : align_subtitles ko ja th = some rows)
    (hko : ∀ e ∈ ko, e.2 ≠ []) (hja : ∀ e ∈ ja, e.2 ≠ []) :
    ∀ r ∈ rows, r.2.1 ≠ [] ∨ r.2.2 ≠ [] := by
  induction ko, ja, th using align_subtitles.induct generalizing rows with
  | case1 ja th =>
    simp only [align_subtitles, Option.some.injEq] at h
    subst h
    intro r hr
    obtain ⟨e, he, rfl⟩ := List.mem_map.mp hr
    exact Or.inr (hja e he)
  | case2 ko th hne =>
    cases ko with
    | nil => exact absurd rfl hne
    | cons k koR =>
      simp only [align_subtitles, Option.some.injEq] at h
      subst h
      intro r hr
      obtain ⟨e, he, rfl⟩ := List.mem_map.mp hr
      exact Or.inl (hko e he)
  | case3 kt kx koR jt jx jaR th kov jav hjt hkt habs ih =>
    simp only [align_subtitles, hkt, hjt, if_pos habs, Option.map_eq_some'] at h
    obtain ⟨rows', hr', hcons⟩ := h
    subst hcons
    intro r hr
    rcases List.mem_cons.mp hr with rfl | hr
    · exact Or.inl (hko (kt, kx) (List.mem_cons_self _ _))
    · exact ih rows' hr'
        (fun e he => hko e (List.mem_cons_of_mem _ he))
        (fun e he => hja e (List.mem_cons_of_mem _ he)) r hr
  | case4 kt kx koR jt jx jaR th kov jav hjt hkt habs hlt ih =>
    simp only [align_subtitles, hkt, hjt, if_neg habs, if_pos hlt,
      Option.map_eq_some'] at h
    obtain ⟨rows', hr', hcons⟩ := h
    subst hcons
    intro r hr
    rcases List.mem_cons.mp hr with rfl | hr
    · exact Or.inl (hko (kt, kx) (List.mem_cons_self _ _))
    · exact ih rows' hr'
        (fun e he => hko e (List.mem_cons_of_mem _ he)) hja r hr
  | case5 kt kx koR jt jx jaR th kov jav hjt hkt habs hnlt ih =>
    simp only [align_subtitles, hkt, hjt, if_neg habs, if_neg hnlt,
      Option.map_eq_some'] at h
    obtain ⟨rows', hr', hcons⟩ := h
    subst hcons
    intro r hr
    rcases List.mem_cons.mp hr with rfl | hr
    · exact Or.inr (hja (jt, jx) (List.mem_cons_self _ _))
    · exact ih rows' hr' hko
        (fun e he => hja e (List.mem_cons_of_mem _ he)) r hr
  | case6 kt kx koR jt jx jaR th hfail =>
    simp only [align_subtitles] at h
    rcases e1 : time_to_ms kt with _ | a
    · cases h
    · rcases e2 : time_to_ms jt with _ | b
      · cases h
      · exact absurd (hfail a b e1 e2) not_false

/-- C9: for tracks produced by the parser and any threshold, every aligned
row has at least one non-empty text field — never both empty. -/
theorem c9_no_row_both_texts_empty (cA cB : Str) (th : Int)
    (rows : List (Str × Str × Str))
    (h : align_subtitles (parse_srt cA) (parse_srt cB) th = some rows) :
    ∀ r ∈ rows, r.2.1 ≠ [] ∨ r.2.2 ≠ [] :=
  align_rows_text_or _ _ _ _ h (parse_srt_text_ne_nil cA) (parse_srt_text_ne_nil cB)

/-- Witness for C9 on a concrete document pair. -/
theorem c9_no_row_both_texts_empty_witness :
    ("hello".data ≠ ([] : Str) ∨ ([] : Str) ≠ ([] : Str)) := by
  have h1 : parse_srt ("1\n0:00:01,000 --> 0:00:02,000\nhello".data) =
      [("0:00:01,000".data, "hello".data)] := by decide
  have h2 : parse_srt ("x".data) = [] := by decide
  refine c9_no_row_both_texts_empty ("1\n0:00:01,000 --> 0:00:02,000\nhello".data)
    ("x".data) 500 [("0:00:01,000".data, "hello".data, ([] : Str))] ?_
    ("0:00:01,000".data, "hello".data, ([] : Str)) (by simp)
  rw [h1, h2]
  simp [align_subtitles]

/-! ## Claim C5: the timing-line pattern -/

theorem not_isSpc_of_isDig {c : Char} (h : isDig c = true) : isSpc c = false := by
  simp only [isDig, decide_eq_true_eq] at h
  simp only [isSpc, decide_eq_false_iff_not]
  omega

theorem takeWhile_all_append (p : Char → Bool) (a b : Str)
    (ha : ∀ c ∈ a, p c = true) :
    (a ++ b).takeWhile p = a ++ b.takeWhile p ∧
      (a ++ b).dropWhile p = b.dropWhile p := by
  induction a with
  | nil => simp
  | cons x xs ih =>
    have hx := ha x (by simp)
    have := ih (fun c hc => ha c (by simp [hc]))
    simp [List.takeWhile_cons, List.dropWhile_cons, hx, this]

theorem ljust3_digitStr {g : Str} (hg : DigitStr g) : DigitStr (ljust3 g) := by
  obtain ⟨h1, h2⟩ := hg
  constructor
  · intro hh
    have hlen : (ljust3 g).length = 0 := by rw [hh]; rfl
    rw [ljust3, List.length_take, List.length_append, List.length_replicate] at hlen
    have : g.length ≠ 0 := fun h0 => h1 (List.eq_nil_of_length_eq_zero h0)
    omega
  · intro c hc
    have := List.mem_of_mem_take hc
    rcases List.mem_append.mp this with hm | hm
    · exact h2 c hm
    · rw [List.eq_of_mem_replicate hm]
      decide

/-- Soundness of the timestamp matcher: success decomposes the input. -/
theorem matchHMS_sound {cs : Str} {h m s : Str} {p : Char} {ms r : Str}
    (hm : matchHMS cs = some (h, m, s, p, ms, r)) :
    cs = h ++ ':' :: (m ++ ':' :: (s ++ p :: (ms ++ r))) ∧
    DigitStr h ∧ DigitStr m ∧ DigitStr s ∧ (p = ',' ∨ p = '.') ∧ DigitStr ms := by
  simp only [matchHMS] at hm
  split at hm
  · cases hm
  · rename_i hne1
    split at hm
    · rename_i rx1 r2 heq1
      split at hm
      · cases hm
      · rename_i hne2
        split at hm
        · rename_i rx2 r4 heq2
          split at hm
          · cases hm
          · rename_i hne3
            split at hm
            · rename_i rx3 p0 r6 heq3
              split at hm
              · rename_i hp
                split at hm
                · cases hm
                · rename_i hne4
                  simp only [Option.some.injEq, Prod.mk.injEq] at hm
                  obtain ⟨e_h, e_m, e_s, e_p, e_ms, e_r⟩ := hm
                  subst e_p
                  have tada := List.takeWhile_append_dropWhile (p := isDig)
                  have ecs : cs = h ++ ':' :: r2 := by
                    conv_lhs => rw [← tada cs]
                    rw [heq1, e_h]
                  have er2 : r2 = m ++ ':' :: r4 := by
                    conv_lhs => rw [← tada r2]
                    rw [heq2, e_m]
                  have er4 : r4 = s ++ p0 :: r6 := by
                    conv_lhs => rw [← tada r4]
                    rw [heq3, e_s]
                  have er6 : r6 = ms ++ r := by
                    conv_lhs => rw [← tada r6]
                    rw [e_ms, e_r]
                  refine ⟨by rw [ecs, er2, er4, er6], ?_, ?_, ?_, ?_, ?_⟩
                  · refine ⟨?_, fun c hc => by rw [← e_h] at hc; exact List.mem_takeWhile_imp hc⟩
                    rw [← e_h]
                    simpa [List.isEmpty_iff] using hne1
                  · refine ⟨?_, fun c hc => by rw [← e_m] at hc; exact List.mem_takeWhile_imp hc⟩
                    rw [← e_m]
                    simpa [List.isEmpty_iff] using hne2
                  · refine ⟨?_, fun c hc => by rw [← e_s] at hc; exact List.mem_takeWhile_imp hc⟩
                    rw [← e_s]
                    simpa [List.isEmpty_iff] using hne3
                  · simpa using hp
                  · refine ⟨?_, fun c hc => by rw [← e_ms] at hc; exact List.mem_takeWhile_imp hc⟩
                    rw [← e_ms]
                    simpa [List.isEmpty_iff] using hne4
              · cases hm
            · cases hm
        · cases hm
    · cases hm

/-- Completeness of the timestamp matcher on a well-shaped input whose
remainder does not begin with a digit. -/
theorem matchHMS_complete (h m s : Str) (p : Char) (ms r : Str)
    (hh : DigitStr h) (hm : DigitStr m) (hs : DigitStr s) (hp : p = ',' ∨ p = '.')
    (hms : DigitStr ms) (hr : ∀ c, r.head? = some c → isDig c = false) :
    matchHMS (h ++ ':' :: (m ++ ':' :: (s ++ p :: (ms ++ r)))) =
      some (h, m, s, p, ms, r) := by
  obtain ⟨hh1, hh2⟩ := hh
  obtain ⟨hm1, hm2⟩ := hm
  obtain ⟨hs1, hs2⟩ := hs
  obtain ⟨hms1, hms2⟩ := hms
  have hpd : isDig p = false := by rcases hp with rfl | rfl <;> decide
  obtain ⟨t1, d1⟩ := takeWhile_append_eq isDig h (':' :: (m ++ ':' :: (s ++ p :: (ms ++ r))))
    hh2 (fun c hc => by injection hc with hc; subst hc; decide)
  obtain ⟨t2, d2⟩ := takeWhile_append_eq isDig m (':' :: (s ++ p :: (ms ++ r)))
    hm2 (fun c hc => by injection hc with hc; subst hc; decide)
  obtain ⟨t3, d3⟩ := takeWhile_append_eq isDig s (p :: (ms ++ r))
    hs2 (fun c hc => by injection hc with hc; subst hc; exact hpd)
  obtain ⟨t4, d4⟩ := takeWhile_append_eq isDig ms r hms2 hr
  have hpc : (decide (p = ',') || decide (p = '.')) = true := by
    rcases hp with rfl | rfl <;> decide
  simp only [matchHMS, t1, d1, List.isEmpty_eq_false.mpr hh1, t2, d2,
    List.isEmpty_eq_false.mpr hm1, t3, d3, List.isEmpty_eq_false.mpr hs1, hpc,
    t4, d4, List.isEmpty_eq_false.mpr hms1]
  simp

/-- The timestamp matcher succeeds on a well-shaped prefix with an
arbitrary remainder. -/
theorem matchHMS_isSome_weak (h m s : Str) (p : Char) (ms rest : Str)
    (hh : DigitStr h) (hm : DigitStr m) (hs : DigitStr s) (hp : p = ',' ∨ p = '.')
    (hms : DigitStr ms) :
    (matchHMS (h ++ ':' :: (m ++ ':' :: (s ++ p :: (ms ++ rest))))).isSome = true := by
  obtain ⟨t5, d5⟩ := takeWhile_all_append isDig ms rest hms.2
  have hsplit : ms ++ rest = (ms ++ rest.takeWhile isDig) ++ rest.dropWhile isDig := by
    rw [List.append_assoc, List.takeWhile_append_dropWhile]
  rw [hsplit, matchHMS_complete h m s p (ms ++ rest.takeWhile isDig)
    (rest.dropWhile isDig) hh hm hs hp ?_ (head?_dropWhile_not isDig rest)]
  · rfl
  · constructor
    · intro hc
      exact hms.1 (List.append_eq_nil.mp hc).1
    · intro c hc
      rcases List.mem_append.mp hc with hc | hc
      · exact hms.2 c hc
      · exact List.mem_takeWhile_imp hc

/-- A successful regex match decomposes the line as the timing pattern. -/
theorem timecode_match_sound {cs : Str} {g : Str × Str × Str × Str}
    (hg : timecode_match cs = some g) : TimingMatch cs := by
  unfold timecode_match at hg
  split at hg
  · rename_i x1 h1 m1 s1 p1 ms1 r heqA
    split at hg
    · rename_i x2 r2 heqB
      split at hg
      · rename_i x3 h2 m2 s2 p2 ms2 r7 heqC
        obtain ⟨ecs, dh1, dm1, ds1, hp1, dms1⟩ := matchHMS_sound heqA
        obtain ⟨er2d, dh2, dm2, ds2, hp2, dms2⟩ := matchHMS_sound heqC
        have er : r = r.takeWhile isSpc ++ ('-' :: '-' :: '>' :: r2) := by
          conv_lhs => rw [← List.takeWhile_append_dropWhile isSpc r]
          rw [heqB]
        have er2full : r2 = r2.takeWhile isSpc ++
            (h2 ++ ':' :: (m2 ++ ':' :: (s2 ++ p2 :: (ms2 ++ r7)))) := by
          conv_lhs => rw [← List.takeWhile_append_dropWhile isSpc r2]
          rw [er2d]
        set w1 := r.takeWhile isSpc with hw1
        set w2 := r2.takeWhile isSpc with hw2
        refine ⟨h1, m1, s1, p1, ms1, w1, w2,
          h2, m2, s2, p2, ms2, r7, ?_, dh1, dm1, ds1, hp1, dms1, ?_, ?_,
          dh2, dm2, ds2, hp2, dms2⟩
        · rw [ecs, er, er2full]
          simp [List.append_assoc]
        · intro c hc
          rw [hw1] at hc
          exact List.mem_takeWhile_imp hc
        · intro c hc
          rw [hw2] at hc
          exact List.mem_takeWhile_imp hc
      · cases hg
    · cases hg
  · cases hg

/-- A line of the timing pattern is matched by the regex. -/
theorem timecode_match_complete {cs : Str} (htm : TimingMatch cs) :
    (timecode_match cs).isSome = true := by
  obtain ⟨h1, m1, s1, p1, ms1, w1, w2, h2, m2, s2, p2, ms2, rest, rfl,
    dh1, dm1, ds1, hp1, dms1, sw1, sw2, dh2, dm2, ds2, hp2, dms2⟩ := htm
  have hR : ∀ c, (w1 ++ '-' :: '-' :: '>' ::
      (w2 ++ (h2 ++ ':' :: (m2 ++ ':' :: (s2 ++ p2 :: (ms2 ++ rest)))))).head? = some c →
      isDig c = false := by
    intro c hc
    cases w1 with
    | nil =>
      injection hc with hc
      subst hc
      decide
    | cons a w1t =>
      injection hc with hc
      subst hc
      exact not_isDig_of_isSpc (sw1 a (by simp))
  have hw2head : ∀ c, (h2 ++ ':' :: (m2 ++ ':' :: (s2 ++ p2 :: (ms2 ++ rest)))).head? =
      some c → isSpc c = false := by
    intro c hc
    cases h2 with
    | nil => exact absurd rfl dh2.1
    | cons a h2t =>
      injection hc with hc
      subst hc
      exact not_isSpc_of_isDig (dh2.2 a (by simp))
  have hfirst := matchHMS_complete h1 m1 s1 p1 ms1
    (w1 ++ '-' :: '-' :: '>' :: (w2 ++ (h2 ++ ':' :: (m2 ++ ':' :: (s2 ++ p2 :: (ms2 ++ rest))))))
    dh1 dm1 ds1 hp1 dms1 hR
  obtain ⟨tw1, dw1⟩ := takeWhile_append_eq isSpc w1
    ('-' :: '-' :: '>' :: (w2 ++ (h2 ++ ':' :: (m2 ++ ':' :: (s2 ++ p2 :: (ms2 ++ rest))))))
    sw1 (fun c hc => by injection hc with hc; subst hc; decide)
  obtain ⟨tw2, dw2⟩ := takeWhile_append_eq isSpc w2
    (h2 ++ ':' :: (m2 ++ ':' :: (s2 ++ p2 :: (ms2 ++ rest)))) sw2 hw2head
  have hsecond := matchHMS_isSome_weak h2 m2 s2 p2 ms2 rest dh2 dm2 ds2 hp2 dms2
  obtain ⟨tup, htup⟩ := Option.isSome_iff_exists.mp hsecond
  have ecs : h1 ++ ':' :: (m1 ++ ':' :: (s1 ++ p1 ::
        (ms1 ++ w1 ++ '-' :: '-' :: '>' ::
          (w2 ++ h2 ++ ':' :: (m2 ++ ':' :: (s2 ++ p2 :: (ms2 ++ rest))))))) =
      h1 ++ ':' :: (m1 ++ ':' :: (s1 ++ p1 :: (ms1 ++
        (w1 ++ '-' :: '-' :: '>' ::
          (w2 ++ (h2 ++ ':' :: (m2 ++ ':' :: (s2 ++ p2 :: (ms2 ++ rest))))))))) := by
    simp [List.append_assoc]
  obtain ⟨a1, a2, a3, a4, a5, a6⟩ := tup
  rw [ecs]
  simp only [timecode_match, hfirst, dw1, dw2, htup, Option.isSome_some]

/-- C5 (amended): the parser accepts a timing line exactly when a prefix of
it matches `H+:M+:S+[,.]m+ \s* --> \s* H+:M+:S+[,.]m+` — every numeric
field one or more digits (minutes and seconds are not limited to two
digits) with arbitrary trailing content — and for every accepted line the
stored start timestamp parses to
`H*3600000 + M*60000 + S*1000 + mmm`, where `mmm` is the millisecond field
right-padded with zeros to three digits and truncated to three if
longer. -/
theorem c5_timing_line_acceptance (cs : Str) :
    ((timecode_match cs).isSome = true ↔ TimingMatch cs) ∧
    (∀ g1 g2 g3 g4, timecode_match cs = some (g1, g2, g3, g4) →
      ∃ h m s, g1 = h ++ ':' :: (m ++ ':' :: s) ∧
        DigitStr h ∧ DigitStr m ∧ DigitStr s ∧ DigitStr g2 ∧
        time_to_ms (g1 ++ ',' :: ljust3 g2) =
          some (digVal h * 3600000 + digVal m * 60000 + digVal s * 1000 +
            digVal (ljust3 g2))) := by
  constructor
  · constructor
    · intro hs
      obtain ⟨g, hg⟩ := Option.isSome_iff_exists.mp hs
      exact timecode_match_sound hg
    · exact timecode_match_complete
  · intro g1 g2 g3 g4 hg
    unfold timecode_match at hg
    split at hg
    · rename_i x1 h1 m1 s1 p1 ms1 r heqA
      split at hg
      · rename_i x2 r2 heqB
        split at hg
        · rename_i x3 h2 m2 s2 p2 ms2 r7 heqC
          simp only [Option.some.injEq, Prod.mk.injEq] at hg
          obtain ⟨e1, e2, e3, e4⟩ := hg
          subst e1
          subst e2
          obtain ⟨_, dh1, dm1, ds1, _, dms1⟩ := matchHMS_sound heqA
          refine ⟨h1, m1, s1, by simp [List.append_assoc], dh1, dm1, ds1, dms1, ?_⟩
          rw [show (h1 ++ ':' :: m1 ++ ':' :: s1) ++ ',' :: ljust3 ms1 =
              h1 ++ ':' :: (m1 ++ ':' :: (s1 ++ ',' :: ljust3 ms1)) from by
            simp [List.append_assoc]]
          exact time_to_ms_build h1 m1 s1 (ljust3 ms1) dh1 dm1 ds1
            (ljust3_digitStr dms1)
        · cases hg
      · cases hg
    · cases hg

/-- C5 counterexample: a timing line with one-digit minutes and seconds is
accepted by the source's pattern (`\d+:\d+:\d+`), but does not match the
claim's pattern requiring exactly two digits for minutes and seconds, so
acceptance is not "exactly" the claimed pattern. -/
theorem c5_counterexample :
    (timecode_match ("0:0:0,5 --> 0:0:1,0".data)).isSome = true ∧
    claim_pattern ("0:0:0,5 --> 0:0:1,0".data) = false := by
  exact ⟨by decide, by decide⟩

/-- Witness for C5 at a concrete accepted line: the stored start timestamp
`0:00:01,500` of the line `0:00:01,5 --> 0:00:02,0` carries the padded
millisecond value. -/
theorem c5_timing_line_acceptance_witness :
    ∃ h m s, ("0:00:01".data : Str) = h ++ ':' :: (m ++ ':' :: s) ∧
      DigitStr h ∧ DigitStr m ∧ DigitStr s ∧ DigitStr ("5".data) ∧
      time_to_ms (("0:00:01".data : Str) ++ ',' :: ljust3 ("5".data)) =
        some (digVal h * 3600000 + digVal m * 60000 + digVal s * 1000 +
          digVal (ljust3 ("5".data))) :=
  (c5_timing_line_acceptance ("0:00:01,5 --> 0:00:02,0".data)).2
    ("0:00:01".data) ("5".data) ("0:00:02".data) ("0".data) (by decide)

end KRJPN
